import Mathlib

/-!
# Verification of the constant-time GCD / modular-inverse core

Shallow embedding of the SICT-GCD / SICT-MI algorithms (short-iteration
constant-time binary GCD and modular inverse) together with their
constant-time primitives and the even-modulus / odd-operand adapters,
as implemented in `gcd.py`, `maths/modinv.py` and
`courses/modular/ct-pres.py`.

Python integers are arbitrary-precision, so values are modelled as `ℕ`
(or `ℤ` where the source manipulates possibly-negative intermediates);
`x >> 1` becomes `x / 2` (floor), `x & 1` becomes `x % 2`, and a failing
`assert` is modelled by returning `none`.
-/

namespace Cryptohack

/-! ## Constant-time primitives (gcd.py / modinv.py) -/

/-- `select(a, b, cond)`: return `a` if `!cond`, `b` if `cond` (gcd.py). -/
def select (a b : ℕ) (cond : Bool) : ℕ :=
  if cond then b else a

/-- `cond_swap(a, b, cond)`: return `(a, b)` if `!cond`, `(b, a)` if `cond` (gcd.py). -/
def cond_swap (a b : ℕ) (cond : Bool) : ℕ × ℕ :=
  if cond then (b, a) else (a, b)

/-- `sub_mod(x, y, n)`: `x - y mod n`, result in `[0, n)` (modinv.py). -/
def sub_mod (x y n : ℕ) : ℕ :=
  if x < y then x + n - y else x - y

/-- `add_mod(x, y, n)`: the source computes `z = x + y` and returns
`z - n` when `z > n`, else `z` (modinv.py). -/
def add_mod (x y n : ℕ) : ℕ :=
  let z := x + y
  if z > n then z - n else z

/-- `div2_mod(x, n)`: `x * 2⁻¹ mod n` for odd `n` (modinv.py). -/
def div2_mod (x n : ℕ) : ℕ :=
  if x % 2 = 0 then x / 2 else (x + n) / 2

/-- `div2l_mod(x, n)`: divide by `2` modulo `n` exactly `2 * bitlen n` times
(modinv.py).  `Nat.size` is Python's `int.bit_length`. -/
def div2l_mod (x n : ℕ) : ℕ :=
  (fun y => div2_mod y n)^[2 * Nat.size n] x

/-! ## SICT-GCD, readable constant-time form (`sict_gcd2` in gcd.py)

The loop body of `sict_gcd2` (identical to the `u, v` half of `sict_mi`):
```
d = v - u
u_is_odd, v_is_odd = u & 1 != 0, v & 1 != 0
t1 = d;  t1 = select(t1, u, u_is_odd and v_is_odd)
t2 = u;  t2 = select(t2, d, u_is_odd and v_is_odd)
t2 = select(t2, v, u_is_odd and not v_is_odd);  t2 >>= 1
lt = t2 < t1
u, v = cond_swap(t1, t2, lt)
```
-/

/-- One iteration of the `sict_gcd2` loop on the state `(u, v)`. -/
def gcd_step (s : ℕ × ℕ) : ℕ × ℕ :=
  let u := s.1
  let v := s.2
  let d := v - u
  let u_is_odd := u % 2 ≠ 0
  let v_is_odd := v % 2 ≠ 0
  let t1 := select d u (u_is_odd && v_is_odd)
  let t2 := (select (select u d (u_is_odd && v_is_odd)) v (u_is_odd && !v_is_odd)) / 2
  cond_swap t1 t2 (decide (t2 < t1))

/-- `sict_gcd2(p, a)` (gcd.py): asserts `p ≥ a ≥ 0` and at least one of
`p, a` odd, then runs the loop `2 * p.bit_length()` times starting from
`u, v = a, p` and returns `v`. -/
def sict_gcd2 (p a : ℕ) : Option ℕ :=
  if a ≤ p ∧ (p % 2 ≠ 0 ∨ a % 2 ≠ 0) then
    some (gcd_step^[2 * Nat.size p] (a, p)).2
  else
    none

/-! ## SICT-GCD, branching form (`si_gcd` in gcd.py, Algorithm 6 of [Jin23]) -/

/-- `max_min(x, y)`: return `(x, y)` if `x > y` else `(y, x)` (inner helper of `si_gcd`). -/
def max_min (x y : ℕ) : ℕ × ℕ :=
  if x > y then (x, y) else (y, x)

/-- One iteration of the `si_gcd` loop.  The source mutates `u` (resp. `d`, `v`)
before feeding it to `max_min`, and assigns `v, u = max_min(...)`. -/
def si_step (s : ℕ × ℕ) : ℕ × ℕ :=
  let u := s.1
  let v := s.2
  let d := v - u
  if u % 2 = 0 then
    let w := max_min (u / 2) d
    (w.2, w.1)
  else if v % 2 ≠ 0 then
    let w := max_min (d / 2) u
    (w.2, w.1)
  else
    let w := max_min (v / 2) d
    (w.2, w.1)

/-- `si_gcd(a, b)` (gcd.py): asserts `a ≥ b ≥ 0`, one of them odd; runs the
loop `2 * a.bit_length()` times from `u, v = b, a` and returns `v`. -/
def si_gcd (a b : ℕ) : Option ℕ :=
  if b ≤ a ∧ (a % 2 ≠ 0 ∨ b % 2 ≠ 0) then
    some (si_step^[2 * Nat.size a] (b, a)).2
  else
    none

/-! ## SICT-GCD, arithmetic-identity form (`sict_gcd` in gcd.py, Algorithm 8 style)

The body computes, over Python (signed, arbitrary-precision) integers:
```
s, z = u & 1, v & 1
t1 = (s ^ z) * v + (2 * s * z - 1) * u
t2 = (s * v + (2 - 2 * s - z) * u) >> 1
if t2 >= t1: u, v = t1, t2 else: u, v = t2, t1
```
`t1` can be negative (when `s = z = 0` it is `-u`), so the state is `ℤ × ℤ`.
For bits `s, z ∈ {0, 1}`, `s ^ z` (xor) equals `(s + z) % 2`; `x >> 1` is
floor division by two, i.e. `Int.fdiv x 2`. -/

/-- One iteration of the `sict_gcd` loop over `ℤ`. -/
def sict_step (st : ℤ × ℤ) : ℤ × ℤ :=
  let u := st.1
  let v := st.2
  let s := u % 2
  let z := v % 2
  let t1 := ((s + z) % 2) * v + (2 * s * z - 1) * u
  let t2 := Int.fdiv (s * v + (2 - 2 * s - z) * u) 2
  if t2 ≥ t1 then (t1, t2) else (t2, t1)

/-- `sict_gcd(p, a)` (gcd.py): same contract as `sict_gcd2`, arithmetic form. -/
def sict_gcd (p a : ℕ) : Option ℤ :=
  if a ≤ p ∧ (p % 2 ≠ 0 ∨ a % 2 ≠ 0) then
    some (sict_step^[2 * Nat.size p] ((a : ℤ), (p : ℤ))).2
  else
    none

/-! ## SICT-MI (`sict_mi` in maths/modinv.py)

State `(u, v, q, r)`, initialised to `(a, p, 0, 1)`; the `(u, v)` half is the
`sict_gcd2` body, the `(q, r)` half mirrors it with modular arithmetic, with
the halving of `t4` deferred (compensated by doubling `t3`), and the pairs are
swapped in lockstep by the same `lt` bit.  We represent the state as
`((u, v), (q, r))`. -/

/-- One iteration of the `sict_mi` loop (maths/modinv.py). -/
def mi_step (p : ℕ) (s : (ℕ × ℕ) × ℕ × ℕ) : (ℕ × ℕ) × ℕ × ℕ :=
  let u := s.1.1
  let v := s.1.2
  let q := s.2.1
  let r := s.2.2
  let u_is_odd := u % 2 ≠ 0
  let v_is_odd := v % 2 ≠ 0
  let d1 := v - u
  let t1 := select d1 u (u_is_odd && v_is_odd)
  let t2 := (select (select u d1 (u_is_odd && v_is_odd)) v (u_is_odd && !v_is_odd)) / 2
  let d2 := sub_mod q r p
  let t3 := add_mod (select d2 r (u_is_odd && v_is_odd)) (select d2 r (u_is_odd && v_is_odd)) p
  let t4 := select (select r d2 (u_is_odd && v_is_odd)) q (u_is_odd && !v_is_odd)
  let lt := decide (t2 < t1)
  let uv := cond_swap t1 t2 lt
  let rq := cond_swap t3 t4 lt
  (uv, (rq.2, rq.1))

/-- `sict_mi(a, p)` (maths/modinv.py): asserts `p ≥ a ≥ 0` and `p` odd, runs
the loop `2 * p.bit_length()` times, asserts `v == 1`, and returns the
de-scaled `q`. -/
def sict_mi (a p : ℕ) : Option ℕ :=
  if a ≤ p ∧ p % 2 ≠ 0 then
    let s := (mi_step p)^[2 * Nat.size p] ((a, p), (0, 1))
    if s.1.2 = 1 then some (div2l_mod s.2.1 p) else none
  else
    none

/-- One iteration of the `sict_mi` loop of courses/modular/ct-pres.py, whose
only difference from maths/modinv.py is the line `t3 = t3 * 2 % p` in place
of `t3 = add_mod(t3, t3, p)`. -/
def mi_step_ct (p : ℕ) (s : (ℕ × ℕ) × ℕ × ℕ) : (ℕ × ℕ) × ℕ × ℕ :=
  let u := s.1.1
  let v := s.1.2
  let q := s.2.1
  let r := s.2.2
  let u_is_odd := u % 2 ≠ 0
  let v_is_odd := v % 2 ≠ 0
  let d1 := v - u
  let t1 := select d1 u (u_is_odd && v_is_odd)
  let t2 := (select (select u d1 (u_is_odd && v_is_odd)) v (u_is_odd && !v_is_odd)) / 2
  let d2 := sub_mod q r p
  let t3 := (select d2 r (u_is_odd && v_is_odd)) * 2 % p
  let t4 := select (select r d2 (u_is_odd && v_is_odd)) q (u_is_odd && !v_is_odd)
  let lt := decide (t2 < t1)
  let uv := cond_swap t1 t2 lt
  let rq := cond_swap t3 t4 lt
  (uv, (rq.2, rq.1))

/-- `sict_mi` as written in courses/modular/ct-pres.py. -/
def sict_mi_ct (a p : ℕ) : Option ℕ :=
  if a ≤ p ∧ p % 2 ≠ 0 then
    let s := (mi_step_ct p)^[2 * Nat.size p] ((a, p), (0, 1))
    if s.1.2 = 1 then some (div2l_mod s.2.1 p) else none
  else
    none

/-! ## Adapters (courses/modular/ct-pres.py) -/

/-- `sict_mi_2mod4(a, n)`: inverse modulo `n ≡ 2 (mod 4)`.  Asserts
`0 < a < n` and `n % 4 == 2`; computes `i2 = sict_mi(a % n2, n2)` for
`n2 = n >> 1` and selects the odd candidate among `i2`, `i2 + n2`. -/
def sict_mi_2mod4 (a n : ℕ) : Option ℕ :=
  if 0 < a ∧ a < n ∧ n % 4 = 2 then
    let n2 := n / 2
    match sict_mi_ct (a % n2) n2 with
    | none => none
    | some i2 => some (select i2 (i2 + n2) (decide (i2 % 2 = 0)))
  else
    none

/-- `sict_mi_a_odd(a, n)`: inverse of odd `a` modulo arbitrary `n`.  Asserts
`a > 1` and `n > 1`; computes `n1 = sict_mi(n % a, a)`, the integer
`k = (n * n1 - 1) // a`, and returns `n - k`. -/
def sict_mi_a_odd (a n : ℕ) : Option ℕ :=
  if 1 < a ∧ 1 < n then
    match sict_mi_ct (n % a) a with
    | none => none
    | some n1 => some (n - (n * n1 - 1) / a)
  else
    none

/-! ## Instrumented iteration counts

The `for _ in range(2 * p.bit_length())` loops: the same iteration with an
explicit counter threaded through the state, counting executed iterations. -/

/-- The `sict_gcd2` loop with an iteration counter; returns the number of
loop iterations executed. -/
def sict_gcd2_iters (p a : ℕ) : ℕ :=
  ((fun sc : (ℕ × ℕ) × ℕ => (gcd_step sc.1, sc.2 + 1))^[2 * Nat.size p] ((a, p), 0)).2

/-- The `sict_mi` loop with an iteration counter; returns the number of
loop iterations executed (main loop only, excluding `div2l_mod`). -/
def sict_mi_iters (p a : ℕ) : ℕ :=
  ((fun sc : ((ℕ × ℕ) × ℕ × ℕ) × ℕ => (mi_step p sc.1, sc.2 + 1))^[2 * Nat.size p]
    (((a, p), (0, 1)), 0)).2

/-! ## Bit-length helper lemmas -/

/-- `Nat.size` counts one bit per halving: `size n = size (n / 2) + 1` for `n ≠ 0`. -/
theorem size_div2_add_one {n : ℕ} (h : n ≠ 0) : Nat.size n = Nat.size (n / 2) + 1 := by
  apply le_antisymm
  · apply Nat.size_le.2
    have h1 : n / 2 < 2 ^ Nat.size (n / 2) := Nat.lt_size_self _
    have h2 : n < 2 * (n / 2) + 2 := by omega
    calc n < 2 * (n / 2) + 2 := h2
      _ ≤ 2 * 2 ^ Nat.size (n / 2) := by omega
      _ = 2 ^ (Nat.size (n / 2) + 1) := by ring
  · have hpos : 0 < Nat.size n := Nat.size_pos.2 (Nat.pos_of_ne_zero h)
    have h1 : n < 2 ^ Nat.size n := Nat.lt_size_self n
    have h2 : n / 2 < 2 ^ (Nat.size n - 1) := by
      have : 2 ^ Nat.size n = 2 * 2 ^ (Nat.size n - 1) := by
        conv_lhs => rw [show Nat.size n = (Nat.size n - 1) + 1 by omega]
        ring
      omega
    have := Nat.size_le.2 h2
    omega

/-- `size (n / 2) = size n - 1`. -/
theorem size_div2 (n : ℕ) : Nat.size (n / 2) = Nat.size n - 1 := by
  rcases eq_or_ne n 0 with rfl | h
  · simp
  · rw [size_div2_add_one h]
    omega

/-- Doubling adds one bit (for `n ≠ 0`). -/
theorem size_two_mul {n : ℕ} (h : n ≠ 0) : Nat.size (2 * n) = Nat.size n + 1 := by
  have h2 : 2 * n ≠ 0 := by omega
  rw [size_div2_add_one h2]
  congr 1
  congr 1
  omega

theorem size_one_le {n : ℕ} (h : 1 ≤ n) : 1 ≤ Nat.size n :=
  Nat.size_pos.2 h

/-- Bracketing a number between consecutive powers of two determines its size. -/
theorem size_eq_of_lt {n k : ℕ} (h2 : 2 ^ k ≤ n) (h1 : n < 2 ^ (k + 1)) :
    Nat.size n = k + 1 :=
  le_antisymm (Nat.size_le.2 h1) (Nat.lt_size.2 h2)

/-! ## The termination measure

For a sorted state `(u, v)` write `d = v - u`.  The measure is
`Bp u d` where `Bp a b = size (min a b) + max (size (max a b - min a b)) 1`:
the bit length of the smaller of `u, d` plus (at least one for) the bit
length of their distance.  One loop iteration strictly decreases it as long
as the `u`-component stays positive, and `Bp a (p - a) ≤ 2 * size p`, which
is exactly the public iteration budget of the algorithms. -/

/-- Measure on the unordered pair `{a, b}` (namely `{u, v - u}`). -/
def Bp (a b : ℕ) : ℕ :=
  Nat.size (min a b) + max (Nat.size (max a b - min a b)) 1

theorem Bp_comm (a b : ℕ) : Bp a b = Bp b a := by
  unfold Bp
  rw [min_comm, max_comm a b]

theorem Bp_pos (a b : ℕ) : 1 ≤ Bp a b := by
  unfold Bp
  omega

/-- Measure on a sorted state `(u, v)`. -/
def Bnd (u v : ℕ) : ℕ := Bp u (v - u)

/-- `cond_swap t1 t2 (t2 < t1)` sorts the pair. -/
theorem cond_swap_lt (t1 t2 : ℕ) :
    cond_swap t1 t2 (decide (t2 < t1)) = (min t1 t2, max t1 t2) := by
  unfold cond_swap
  rcases lt_or_ge t2 t1 with h | h
  · have h1 := min_eq_right (le_of_lt h)
    have h2 := max_eq_left (le_of_lt h)
    simp [h, h1, h2]
  · have h1 := min_eq_left h
    have h2 := max_eq_right h
    simp [Nat.not_lt_of_ge h, h1, h2]

/-- Case characterisation of one `sict_gcd2` iteration: the new state is the
sorted pair of `{u/2, d}`, `{u, d/2}` or `{v/2, d}` according to parities. -/
theorem gcd_step_char (u v : ℕ) :
    gcd_step (u, v) =
      if u % 2 = 0 then (min (u / 2) (v - u), max (u / 2) (v - u))
      else if v % 2 = 1 then (min u ((v - u) / 2), max u ((v - u) / 2))
      else (min (v / 2) (v - u), max (v / 2) (v - u)) := by
  have hu := Nat.mod_two_eq_zero_or_one u
  have hv := Nat.mod_two_eq_zero_or_one v
  rcases hu with hu | hu <;> rcases hv with hv | hv <;>
    simp [gcd_step, select, hu, hv, cond_swap_lt, min_comm, max_comm]

/-- 2 ≤ size of anything ≥ 2. -/
theorem size_two_le {n : ℕ} (h : 2 ≤ n) : 2 ≤ Nat.size n :=
  Nat.lt_size.2 (by omega)

/-- Halving the even member of a pair (with the other member odd) and
re-pairing with the distance strictly decreases the measure.  This is the
`u`-even and (by symmetry of `Bp`) the both-odd-subtract cases of the loop. -/
theorem Bp_halve {a b : ℕ} (ha : a % 2 = 0) (hb : b % 2 = 1) (ha1 : 1 ≤ a) :
    Bp (min (a / 2) b) (max (a / 2) b - min (a / 2) b) + 1 ≤ Bp a b := by
  have ha2 : 2 * (a / 2) = a := by omega
  have hb1 : 1 ≤ b := by omega
  have hsa : Nat.size (a / 2) = Nat.size a - 1 := size_div2 a
  have hsa1 : 1 ≤ Nat.size a := size_one_le ha1
  have hsb1 : 1 ≤ Nat.size b := size_one_le hb1
  rcases le_or_lt (a / 2) b with hAb | hAb
  · have hmin : min (a / 2) b = a / 2 := min_eq_left hAb
    have hmax : max (a / 2) b = b := max_eq_right hAb
    rw [hmin, hmax]
    rcases le_or_lt a b with hab | hab
    · -- a ≤ b : new pair (a/2, b - a/2), distance b - a
      have h1 : min (a / 2) (b - a / 2) = a / 2 := min_eq_left (by omega)
      have h2 : max (a / 2) (b - a / 2) = b - a / 2 := max_eq_right (by omega)
      have h6 : min a b = a := min_eq_left hab
      have h7 : max a b = b := max_eq_right hab
      unfold Bp
      rw [h1, h2, h6, h7]
      have h3 : b - a / 2 - a / 2 = b - a := by omega
      rw [h3]
      omega
    · -- b < a ≤ 2b : new min is b - a/2 ≤ b/2, distance a - b preserved
      have h1 : min (a / 2) (b - a / 2) = b - a / 2 := min_eq_right (by omega)
      have h2 : max (a / 2) (b - a / 2) = a / 2 := max_eq_left (by omega)
      have h6 : min a b = b := min_eq_right (le_of_lt hab)
      have h7 : max a b = a := max_eq_left (le_of_lt hab)
      unfold Bp
      rw [h1, h2, h6, h7]
      have h3 : a / 2 - (b - a / 2) = a - b := by omega
      rw [h3]
      have h4 : b - a / 2 ≤ b / 2 := by omega
      have h5 : Nat.size (b - a / 2) ≤ Nat.size (b / 2) := Nat.size_le_size h4
      have h8 : Nat.size (b / 2) = Nat.size b - 1 := size_div2 b
      omega
  · -- b < a/2 : new state (b, a/2 - b)
    have hmin : min (a / 2) b = b := min_eq_right (le_of_lt hAb)
    have hmax : max (a / 2) b = a / 2 := max_eq_left (le_of_lt hAb)
    rw [hmin, hmax]
    have hab : b < a := by omega
    have h6 : min a b = b := min_eq_right (le_of_lt hab)
    have h7 : max a b = a := max_eq_left (le_of_lt hab)
    have hd1 : 1 ≤ a - b := by omega
    have hsd : 1 ≤ Nat.size (a - b) := size_one_le hd1
    rcases le_or_lt (a / 2 - b) b with hα | hα
    · -- a ≤ 4b : new pair (a/2 - b, distance 2b - a/2)
      have h1 : min b (a / 2 - b) = a / 2 - b := min_eq_right hα
      have h2 : max b (a / 2 - b) = b := max_eq_left hα
      unfold Bp
      rw [h1, h2, h6, h7]
      have hα1 : 1 ≤ a / 2 - b := by omega
      have hm : Nat.size (b - (a / 2 - b)) ≤ Nat.size b := Nat.size_le_size (by omega)
      have hdbl : Nat.size (2 * (a / 2 - b)) = Nat.size (a / 2 - b) + 1 :=
        size_two_mul (by omega)
      have hmono : Nat.size (2 * (a / 2 - b)) ≤ Nat.size (a - b) :=
        Nat.size_le_size (by omega)
      omega
    · -- 4b < a : new pair (b, distance a/2 - 2b)
      have h1 : min b (a / 2 - b) = b := min_eq_left (le_of_lt hα)
      have h2 : max b (a / 2 - b) = a / 2 - b := max_eq_right (le_of_lt hα)
      unfold Bp
      rw [h1, h2, h6, h7]
      have hdd : Nat.size ((a - b) / 2) = Nat.size (a - b) - 1 := size_div2 (a - b)
      have hmono : Nat.size (a / 2 - b - b) ≤ Nat.size ((a - b) / 2) :=
        Nat.size_le_size (by omega)
      have hge2 : 2 ≤ Nat.size (a - b) := size_two_le (by omega)
      omega

/-- The both-odd case of the loop: the pair `{u, d}` (both odd) is replaced by
the sorted pair of `{(u + d) / 2, d}`; the measure strictly decreases. -/
theorem Bp_both_odd {u d : ℕ} (hu : u % 2 = 1) (hd : d % 2 = 1) :
    Bp (min ((u + d) / 2) d) (max ((u + d) / 2) d - min ((u + d) / 2) d) + 1 ≤ Bp u d := by
  have hu1 : 1 ≤ u := by omega
  have hd1 : 1 ≤ d := by omega
  have hsu1 : 1 ≤ Nat.size u := size_one_le hu1
  have hsd1 : 1 ≤ Nat.size d := size_one_le hd1
  rcases lt_trichotomy u d with hud | hud | hud
  · -- u < d : new pair ((d - u)/2, distance u)
    have hmin : min ((u + d) / 2) d = (u + d) / 2 := min_eq_left (by omega)
    have hmax : max ((u + d) / 2) d = d := max_eq_right (by omega)
    rw [hmin, hmax]
    have h1 : min ((u + d) / 2) (d - (u + d) / 2) = d - (u + d) / 2 :=
      min_eq_right (by omega)
    have h2 : max ((u + d) / 2) (d - (u + d) / 2) = (u + d) / 2 :=
      max_eq_left (by omega)
    have h6 : min u d = u := min_eq_left (le_of_lt hud)
    have h7 : max u d = d := max_eq_right (le_of_lt hud)
    unfold Bp
    rw [h1, h2, h6, h7]
    have h3 : d - (u + d) / 2 = (d - u) / 2 := by omega
    have h4 : (u + d) / 2 - (d - u) / 2 = u := by omega
    rw [h3, h4]
    have h5 : Nat.size ((d - u) / 2) = Nat.size (d - u) - 1 := size_div2 (d - u)
    have h8 : 2 ≤ Nat.size (d - u) := size_two_le (by omega)
    omega
  · -- u = d : new pair (d, 0), measure drops from size d + 1 to size d
    subst hud
    have he : (u + u) / 2 = u := by omega
    rw [he]
    simp only [min_self, max_self, Nat.sub_self]
    unfold Bp
    simp only [Nat.min_zero, Nat.max_zero, Nat.sub_zero, Nat.size_zero, min_self, max_self,
      Nat.sub_self]
    omega
  · -- d < u : new state (d, (u - d)/2)
    have hmin : min ((u + d) / 2) d = d := min_eq_right (by omega)
    have hmax : max ((u + d) / 2) d = (u + d) / 2 := max_eq_left (by omega)
    rw [hmin, hmax]
    have h6 : min u d = d := min_eq_right (le_of_lt hud)
    have h7 : max u d = u := max_eq_left (le_of_lt hud)
    have h3 : (u + d) / 2 - d = (u - d) / 2 := by omega
    have hsud : Nat.size ((u - d) / 2) = Nat.size (u - d) - 1 := size_div2 (u - d)
    have h8 : 2 ≤ Nat.size (u - d) := size_two_le (by omega)
    rcases le_or_lt ((u - d) / 2) d with hα | hα
    · -- u ≤ 3d
      have h1 : min d ((u + d) / 2 - d) = (u - d) / 2 := by
        rw [h3]; exact min_eq_right hα
      have h2 : max d ((u + d) / 2 - d) = d := by
        rw [h3]; exact max_eq_left hα
      unfold Bp
      rw [h1, h2, h6, h7]
      have hm : Nat.size (d - (u - d) / 2) ≤ Nat.size d := Nat.size_le_size (by omega)
      omega
    · -- 3d < u
      have h1 : min d ((u + d) / 2 - d) = d := by
        rw [h3]; exact min_eq_left (le_of_lt hα)
      have h2 : max d ((u + d) / 2 - d) = (u - d) / 2 := by
        rw [h3]; exact max_eq_right (le_of_lt hα)
      unfold Bp
      rw [h1, h2, h6, h7]
      have hm : Nat.size ((u - d) / 2 - d) ≤ Nat.size ((u - d) / 2) :=
        Nat.size_le_size (by omega)
      omega

/-! ## Step invariants of the GCD engine -/

theorem gcd_min_max (x y : ℕ) : Nat.gcd (min x y) (max x y) = Nat.gcd x y := by
  rcases le_total x y with h | h
  · rw [min_eq_left h, max_eq_right h]
  · rw [min_eq_right h, max_eq_left h, Nat.gcd_comm]

/-- The result of one iteration is a sorted pair. -/
theorem gcd_step_sorted (u v : ℕ) : (gcd_step (u, v)).1 ≤ (gcd_step (u, v)).2 := by
  rw [gcd_step_char]
  split_ifs <;> exact min_le_max

/-- One iteration never increases the larger component. -/
theorem gcd_step_snd_le {u v : ℕ} (h : u ≤ v) : (gcd_step (u, v)).2 ≤ v := by
  rw [gcd_step_char]
  split_ifs <;> simp only [max_le_iff] <;> omega

/-- `u = 0` is a fixed point of the iteration. -/
theorem gcd_step_zero (v : ℕ) : gcd_step (0, v) = (0, v) := by
  rw [gcd_step_char]
  norm_num

theorem gcd_step_zero_iter (v k : ℕ) : gcd_step^[k] (0, v) = (0, v) := by
  induction k with
  | zero => rfl
  | succ n ih => rw [Function.iterate_succ_apply, gcd_step_zero, ih]

/-- At `u = v` (necessarily both odd on the invariant domain) the next state
is `(0, u)`. -/
theorem gcd_step_diag {u : ℕ} (hu : u % 2 = 1) : gcd_step (u, u) = (0, u) := by
  rw [gcd_step_char]
  rw [if_neg (by omega), if_pos hu]
  simp

/-- Parity invariant: never both even. -/
theorem gcd_step_parity {u v : ℕ} (huv : u ≤ v) (hpar : ¬(u % 2 = 0 ∧ v % 2 = 0)) :
    ¬((gcd_step (u, v)).1 % 2 = 0 ∧ (gcd_step (u, v)).2 % 2 = 0) := by
  rw [gcd_step_char]
  split_ifs with h1 h2
  · -- u even, v odd, v - u odd
    have hv : v % 2 = 1 := by omega
    have hd : (v - u) % 2 = 1 := by omega
    rcases le_total (u / 2) (v - u) with h | h
    · rw [min_eq_left h, max_eq_right h]; omega
    · rw [min_eq_right h, max_eq_left h]; omega
  · -- both odd, u odd
    have hu : u % 2 = 1 := by omega
    rcases le_total u ((v - u) / 2) with h | h
    · rw [min_eq_left h, max_eq_right h]; omega
    · rw [min_eq_right h, max_eq_left h]; omega
  · -- u odd, v even, v - u odd
    have hu : u % 2 = 1 := by omega
    have hd : (v - u) % 2 = 1 := by omega
    rcases le_total (v / 2) (v - u) with h | h
    · rw [min_eq_left h, max_eq_right h]; omega
    · rw [min_eq_right h, max_eq_left h]; omega

/-- The GCD of the pair is preserved by one iteration. -/
theorem gcd_step_gcd {u v : ℕ} (huv : u ≤ v) (hpar : ¬(u % 2 = 0 ∧ v % 2 = 0)) :
    Nat.gcd (gcd_step (u, v)).1 (gcd_step (u, v)).2 = Nat.gcd u v := by
  rw [gcd_step_char]
  split_ifs with h1 h2
  · -- u even, v odd : gcd (u/2) (v-u) = gcd u v
    have hv : v % 2 = 1 := by omega
    have hd : Odd (v - u) := by
      rcases Nat.odd_iff.2 (show (v - u) % 2 = 1 by omega) with h
      exact h
    simp only [gcd_min_max]
    have h2u : 2 * (u / 2) = u := by omega
    calc Nat.gcd (u / 2) (v - u)
        = Nat.gcd (2 * (u / 2)) (v - u) :=
          (Nat.Coprime.gcd_mul_left_cancel _ (Nat.coprime_two_left.2 hd)).symm
      _ = Nat.gcd u (v - u) := by rw [h2u]
      _ = Nat.gcd u v := Nat.gcd_sub_self_right huv
  · -- u odd, v odd : gcd u ((v-u)/2) = gcd u v
    have hu : Odd u := Nat.odd_iff.2 (by omega)
    have h2d : 2 * ((v - u) / 2) = v - u := by omega
    simp only [gcd_min_max]
    calc Nat.gcd u ((v - u) / 2)
        = Nat.gcd (2 * ((v - u) / 2)) u := by
          rw [Nat.Coprime.gcd_mul_left_cancel _ (Nat.coprime_two_left.2 hu), Nat.gcd_comm]
      _ = Nat.gcd (v - u) u := by rw [h2d]
      _ = Nat.gcd u v := by rw [Nat.gcd_comm, Nat.gcd_sub_self_right huv]
  · -- u odd, v even : gcd (v/2) (v-u) = gcd u v
    have hu : u % 2 = 1 := by omega
    have hd : Odd (v - u) := Nat.odd_iff.2 (by omega)
    have h2v : 2 * (v / 2) = v := by omega
    simp only [gcd_min_max]
    calc Nat.gcd (v / 2) (v - u)
        = Nat.gcd (v - u) (2 * (v / 2)) := by
          rw [Nat.gcd_comm, ← Nat.Coprime.gcd_mul_left_cancel_right _ (Nat.coprime_two_left.2 hd),
            Nat.mul_comm]
      _ = Nat.gcd (v - u) v := by rw [h2v]
      _ = Nat.gcd u v := by
          rw [← Nat.gcd_sub_self_right (show v - u ≤ v by omega),
            show v - (v - u) = u by omega, Nat.gcd_sub_self_left huv, Nat.gcd_comm]

/-- The measure strictly decreases while `1 ≤ u` and `u ≠ v`. -/
theorem Bnd_gcd_step {u v : ℕ} (huv : u ≤ v) (hpar : ¬(u % 2 = 0 ∧ v % 2 = 0))
    (hu : 1 ≤ u) (hne : u ≠ v) :
    Bnd (gcd_step (u, v)).1 (gcd_step (u, v)).2 + 1 ≤ Bnd u v := by
  rw [gcd_step_char]
  split_ifs with h1 h2
  · -- u even (so v odd): halve u inside the pair {u, v-u}
    have hd : (v - u) % 2 = 1 := by omega
    have := Bp_halve (a := u) (b := v - u) h1 hd hu
    simpa [Bnd] using this
  · -- both odd: halve v-u inside the pair {u, v-u}
    have hdd : (v - u) % 2 = 0 := by omega
    have hu2 : u % 2 = 1 := by omega
    have hd1 : 1 ≤ v - u := by omega
    have := Bp_halve (a := v - u) (b := u) hdd hu2 hd1
    rw [Bp_comm (v - u) u] at this
    rw [min_comm, max_comm] at this
    simpa [Bnd] using this
  · -- u odd, v even: both members of {u, v-u} odd
    have hu2 : u % 2 = 1 := by omega
    have hd : (v - u) % 2 = 1 := by omega
    have hv2 : v / 2 = (u + (v - u)) / 2 := by omega
    rw [hv2]
    have := Bp_both_odd (u := u) (d := v - u) hu2 hd
    simpa [Bnd] using this

/-- After enough iterations (any `n ≥` the measure) the `u`-component is `0`. -/
theorem gcd_reach_zero :
    ∀ (n : ℕ) {u v : ℕ}, u ≤ v → ¬(u % 2 = 0 ∧ v % 2 = 0) → Bnd u v ≤ n →
      (gcd_step^[n] (u, v)).1 = 0 := by
  intro n
  induction n with
  | zero =>
    intro u v _ _ hB
    have := Bp_pos u (v - u)
    simp only [Bnd] at hB
    omega
  | succ n ih =>
    intro u v huv hpar hB
    rcases Nat.eq_zero_or_pos u with hu | hu
    · subst hu
      rw [gcd_step_zero_iter]
    rcases eq_or_ne u v with he | hne
    · subst he
      have hodd : u % 2 = 1 := by omega
      rw [Function.iterate_succ_apply, gcd_step_diag hodd, gcd_step_zero_iter]
    · have hdec := Bnd_gcd_step huv hpar hu hne
      have hsort := gcd_step_sorted u v
      have hpar' := gcd_step_parity huv hpar
      rw [Function.iterate_succ_apply]
      have : gcd_step (u, v) = ((gcd_step (u, v)).1, (gcd_step (u, v)).2) := rfl
      rw [this]
      exact ih hsort hpar' (by omega)

/-- The public iteration budget dominates the measure. -/
theorem Bnd_le_budget {a p : ℕ} (h : a ≤ p) (hp : 1 ≤ p) : Bnd a p ≤ 2 * Nat.size p := by
  unfold Bnd Bp
  have h1 : Nat.size (min a (p - a)) ≤ Nat.size p := Nat.size_le_size (by omega)
  have h2 : Nat.size (max a (p - a) - min a (p - a)) ≤ Nat.size p :=
    Nat.size_le_size (by omega)
  have h3 : 1 ≤ Nat.size p := size_one_le hp
  omega

/-- Main engine theorem: after exactly `2 * bitlen p` iterations from `(a, p)`
(with `a ≤ p`, not both even) the state is `(0, gcd a p)`. -/
theorem gcd_engine {a p : ℕ} (h : a ≤ p) (hpar : ¬(a % 2 = 0 ∧ p % 2 = 0)) :
    gcd_step^[2 * Nat.size p] (a, p) = (0, Nat.gcd a p) := by
  have hp : 1 ≤ p := by
    rcases Nat.eq_zero_or_pos p with h0 | h0
    · exfalso; apply hpar; omega
    · exact h0
  -- invariants along the trajectory
  have inv : ∀ k : ℕ,
      (gcd_step^[k] (a, p)).1 ≤ (gcd_step^[k] (a, p)).2 ∧
      ¬((gcd_step^[k] (a, p)).1 % 2 = 0 ∧ (gcd_step^[k] (a, p)).2 % 2 = 0) ∧
      Nat.gcd (gcd_step^[k] (a, p)).1 (gcd_step^[k] (a, p)).2 = Nat.gcd a p := by
    intro k
    induction k with
    | zero => exact ⟨h, hpar, rfl⟩
    | succ n ih =>
      obtain ⟨h1, h2, h3⟩ := ih
      rw [Function.iterate_succ_apply']
      have he : gcd_step^[n] (a, p) = ((gcd_step^[n] (a, p)).1, (gcd_step^[n] (a, p)).2) := rfl
      rw [he]
      exact ⟨gcd_step_sorted _ _, gcd_step_parity h1 h2,
        (gcd_step_gcd h1 h2).trans h3⟩
  have hzero : (gcd_step^[2 * Nat.size p] (a, p)).1 = 0 :=
    gcd_reach_zero _ h hpar (Bnd_le_budget h hp)
  obtain ⟨-, -, hgcd⟩ := inv (2 * Nat.size p)
  rw [hzero] at hgcd
  rw [Nat.gcd_zero_left] at hgcd
  have : gcd_step^[2 * Nat.size p] (a, p)
      = ((gcd_step^[2 * Nat.size p] (a, p)).1, (gcd_step^[2 * Nat.size p] (a, p)).2) := rfl
  rw [this, hzero, hgcd]

/-! ## The `sict_gcd2` theorem -/

/-- On its documented domain, `sict_gcd2` returns the GCD. -/
theorem sict_gcd2_correct {p a : ℕ} (h : a ≤ p) (hpar : p % 2 ≠ 0 ∨ a % 2 ≠ 0) :
    sict_gcd2 p a = some (Nat.gcd p a) := by
  unfold sict_gcd2
  rw [if_pos ⟨h, hpar⟩]
  rw [gcd_engine h (by omega)]
  rw [Nat.gcd_comm]

/-! ## Range and cast lemmas for the modular primitives -/

theorem sub_mod_lt {x y p : ℕ} (hx : x < p) : sub_mod x y p < p := by
  unfold sub_mod
  split_ifs <;> omega

theorem add_mod_self_lt {x p : ℕ} (hx : x < p) (hp : p % 2 = 1) : add_mod x x p < p := by
  show (if x + x > p then x + x - p else x + x) < p
  split_ifs <;> omega

theorem div2_mod_lt {x p : ℕ} (hx : x < p) : div2_mod x p < p := by
  unfold div2_mod
  split_ifs <;> omega

theorem sub_mod_cast {x y p : ℕ} (hy : y < p) :
    ((sub_mod x y p : ℕ) : ZMod p) = (x : ZMod p) - (y : ZMod p) := by
  unfold sub_mod
  split_ifs with h
  · have h1 : y ≤ x + p := by omega
    push_cast [Nat.cast_sub h1]
    simp [ZMod.natCast_self]
  · have h1 : y ≤ x := by omega
    push_cast [Nat.cast_sub h1]
    rfl

theorem add_mod_cast' {x y p : ℕ} :
    ((add_mod x y p : ℕ) : ZMod p) = (x : ZMod p) + (y : ZMod p) := by
  show (((if x + y > p then x + y - p else x + y) : ℕ) : ZMod p) = (x : ZMod p) + (y : ZMod p)
  split_ifs with h
  · have h1 : p ≤ x + y := by omega
    push_cast [Nat.cast_sub h1]
    simp [ZMod.natCast_self]
  · push_cast
    rfl

theorem mul_two_mod_cast {x p : ℕ} :
    ((x * 2 % p : ℕ) : ZMod p) = (x : ZMod p) + (x : ZMod p) := by
  have h1 : ((x * 2 % p : ℕ) : ZMod p) = ((x * 2 : ℕ) : ZMod p) := by
    rw [ZMod.natCast_mod]
  rw [h1]
  push_cast
  ring

theorem div2_mod_cast {x p : ℕ} (hp : p % 2 = 1) :
    (2 : ZMod p) * ((div2_mod x p : ℕ) : ZMod p) = (x : ZMod p) := by
  unfold div2_mod
  split_ifs with h
  · have h1 : (2 : ZMod p) * ((x / 2 : ℕ) : ZMod p) = ((2 * (x / 2) : ℕ) : ZMod p) := by
      push_cast
      ring
    rw [h1, show 2 * (x / 2) = x by omega]
  · have h1 : (2 : ZMod p) * (((x + p) / 2 : ℕ) : ZMod p) = ((2 * ((x + p) / 2) : ℕ) : ZMod p) := by
      push_cast
      ring
    rw [h1, show 2 * ((x + p) / 2) = x + p by omega]
    push_cast
    simp [ZMod.natCast_self]

theorem even_half_cast {u : ℕ} {p : ℕ} (h : u % 2 = 0) :
    (2 : ZMod p) * ((u / 2 : ℕ) : ZMod p) = (u : ZMod p) := by
  have h1 : (2 : ZMod p) * ((u / 2 : ℕ) : ZMod p) = ((2 * (u / 2) : ℕ) : ZMod p) := by
    push_cast
    ring
  rw [h1, show 2 * (u / 2) = u by omega]

/-! ## De-scaling: `div2l_mod` -/

theorem div2l_iter_lt {p : ℕ} : ∀ (j : ℕ) {x : ℕ}, x < p →
    (fun y => div2_mod y p)^[j] x < p := by
  intro j
  induction j with
  | zero => intro x hx; exact hx
  | succ n ih =>
    intro x hx
    rw [Function.iterate_succ_apply]
    exact ih (div2_mod_lt hx)

theorem div2l_iter_cast {p : ℕ} (hp : p % 2 = 1) : ∀ (j : ℕ) (x : ℕ),
    (2 ^ j : ZMod p) * (((fun y => div2_mod y p)^[j] x : ℕ) : ZMod p) = (x : ZMod p) := by
  intro j
  induction j with
  | zero => intro x; simp
  | succ n ih =>
    intro x
    rw [Function.iterate_succ_apply]
    have := ih (div2_mod x p)
    calc (2 ^ (n + 1) : ZMod p) * (((fun y => div2_mod y p)^[n] (div2_mod x p) : ℕ) : ZMod p)
        = 2 * ((2 ^ n : ZMod p) * (((fun y => div2_mod y p)^[n] (div2_mod x p) : ℕ) : ZMod p)) := by
          ring
      _ = 2 * ((div2_mod x p : ℕ) : ZMod p) := by rw [this]
      _ = (x : ZMod p) := div2_mod_cast hp

/-! ## The SICT-MI cofactor invariant -/

/-- The `(u, v)` half of `sict_mi` is exactly the `sict_gcd2` iteration. -/
theorem mi_step_fst (p : ℕ) (s : (ℕ × ℕ) × ℕ × ℕ) : (mi_step p s).1 = gcd_step s.1 :=
  rfl

theorem mi_iter_fst (p a : ℕ) (k : ℕ) :
    ((mi_step p)^[k] ((a, p), (0, 1))).1 = gcd_step^[k] (a, p) := by
  induction k with
  | zero => rfl
  | succ n ih =>
    rw [Function.iterate_succ_apply', Function.iterate_succ_apply', mi_step_fst, ih]

theorem gcd_iter_sorted {a p : ℕ} (h : a ≤ p) (k : ℕ) :
    (gcd_step^[k] (a, p)).1 ≤ (gcd_step^[k] (a, p)).2 := by
  cases k with
  | zero => exact h
  | succ n =>
    rw [Function.iterate_succ_apply']
    have := gcd_step_sorted (gcd_step^[n] (a, p)).1 (gcd_step^[n] (a, p)).2
    simpa using this

/-- Branch-level characterisation of one `sict_mi` iteration. -/
theorem mi_step_eq (p u v q r : ℕ) :
    mi_step p ((u, v), (q, r)) =
      if u % 2 = 0 then
        (cond_swap (v - u) (u / 2) (decide (u / 2 < v - u)),
          ((cond_swap (add_mod (sub_mod q r p) (sub_mod q r p) p) r
              (decide (u / 2 < v - u))).2,
           (cond_swap (add_mod (sub_mod q r p) (sub_mod q r p) p) r
              (decide (u / 2 < v - u))).1))
      else if v % 2 = 1 then
        (cond_swap u ((v - u) / 2) (decide ((v - u) / 2 < u)),
          ((cond_swap (add_mod r r p) (sub_mod q r p) (decide ((v - u) / 2 < u))).2,
           (cond_swap (add_mod r r p) (sub_mod q r p) (decide ((v - u) / 2 < u))).1))
      else
        (cond_swap (v - u) (v / 2) (decide (v / 2 < v - u)),
          ((cond_swap (add_mod (sub_mod q r p) (sub_mod q r p) p) q
              (decide (v / 2 < v - u))).2,
           (cond_swap (add_mod (sub_mod q r p) (sub_mod q r p) p) q
              (decide (v / 2 < v - u))).1)) := by
  rcases Nat.mod_two_eq_zero_or_one u with hu | hu <;>
    rcases Nat.mod_two_eq_zero_or_one v with hv | hv <;>
    simp [mi_step, select, hu, hv]

theorem cond_swap_pos {P : Prop} [Decidable P] (h : P) (a b : ℕ) :
    cond_swap a b (decide P) = (b, a) := by
  simp [cond_swap, h]

theorem cond_swap_neg {P : Prop} [Decidable P] (h : ¬P) (a b : ℕ) :
    cond_swap a b (decide P) = (a, b) := by
  simp [cond_swap, h]

/-- One iteration preserves the scaled Bézout relations
`2^k·u ≡ a·r` and `2^k·v ≡ a·q (mod p)` together with `q, r < p`. -/
theorem mi_step_inv {p : ℕ} (hpo : p % 2 = 1) {u v q r : ℕ} (huv : u ≤ v)
    (hq : q < p) (hr : r < p) (c aZ : ZMod p)
    (h1 : c * (u : ZMod p) = aZ * (r : ZMod p))
    (h2 : c * (v : ZMod p) = aZ * (q : ZMod p)) :
    (mi_step p ((u, v), (q, r))).2.1 < p ∧ (mi_step p ((u, v), (q, r))).2.2 < p ∧
    ((2 * c) * (((mi_step p ((u, v), (q, r))).1.1 : ℕ) : ZMod p)
      = aZ * (((mi_step p ((u, v), (q, r))).2.2 : ℕ) : ZMod p)) ∧
    ((2 * c) * (((mi_step p ((u, v), (q, r))).1.2 : ℕ) : ZMod p)
      = aZ * (((mi_step p ((u, v), (q, r))).2.1 : ℕ) : ZMod p)) := by
  have hcastd : ((v - u : ℕ) : ZMod p) = (v : ZMod p) - (u : ZMod p) := by
    push_cast [Nat.cast_sub huv]
    rfl
  have hd2cast : ((sub_mod q r p : ℕ) : ZMod p) = (q : ZMod p) - (r : ZMod p) :=
    sub_mod_cast hr
  have hd2lt : sub_mod q r p < p := sub_mod_lt hq
  rw [mi_step_eq]
  rcases Nat.mod_two_eq_zero_or_one u with hu | hu
  · -- u even
    rw [if_pos hu]
    have ht3 : ((add_mod (sub_mod q r p) (sub_mod q r p) p : ℕ) : ZMod p)
        = ((q : ZMod p) - r) + ((q : ZMod p) - r) := by
      rw [add_mod_cast', hd2cast]
    have ht3lt : add_mod (sub_mod q r p) (sub_mod q r p) p < p := add_mod_self_lt hd2lt hpo
    have hhalf : (2 : ZMod p) * ((u / 2 : ℕ) : ZMod p) = (u : ZMod p) := even_half_cast hu
    have ga : (2 * c) * ((v - u : ℕ) : ZMod p)
        = aZ * ((add_mod (sub_mod q r p) (sub_mod q r p) p : ℕ) : ZMod p) := by
      rw [hcastd, ht3]
      calc (2 * c) * ((v : ZMod p) - u) = 2 * (c * v) - 2 * (c * u) := by ring
        _ = 2 * (aZ * q) - 2 * (aZ * r) := by rw [h1, h2]
        _ = aZ * (((q : ZMod p) - r) + ((q : ZMod p) - r)) := by ring
    have gb : (2 * c) * ((u / 2 : ℕ) : ZMod p) = aZ * (r : ZMod p) := by
      calc (2 * c) * ((u / 2 : ℕ) : ZMod p) = c * ((2 : ZMod p) * ((u / 2 : ℕ) : ZMod p)) := by
            ring
        _ = c * (u : ZMod p) := by rw [hhalf]
        _ = aZ * r := h1
    by_cases hlt : u / 2 < v - u
    · rw [cond_swap_pos hlt, cond_swap_pos hlt]
      exact ⟨ht3lt, hr, gb, ga⟩
    · rw [cond_swap_neg hlt, cond_swap_neg hlt]
      exact ⟨hr, ht3lt, ga, gb⟩
  · rw [if_neg (by omega)]
    rcases Nat.mod_two_eq_zero_or_one v with hv | hv
    · -- u odd, v even
      rw [if_neg (by omega)]
      have ht3 : ((add_mod (sub_mod q r p) (sub_mod q r p) p : ℕ) : ZMod p)
          = ((q : ZMod p) - r) + ((q : ZMod p) - r) := by
        rw [add_mod_cast', hd2cast]
      have ht3lt : add_mod (sub_mod q r p) (sub_mod q r p) p < p := add_mod_self_lt hd2lt hpo
      have hhalf : (2 : ZMod p) * ((v / 2 : ℕ) : ZMod p) = (v : ZMod p) := even_half_cast hv
      have ga : (2 * c) * ((v - u : ℕ) : ZMod p)
          = aZ * ((add_mod (sub_mod q r p) (sub_mod q r p) p : ℕ) : ZMod p) := by
        rw [hcastd, ht3]
        calc (2 * c) * ((v : ZMod p) - u) = 2 * (c * v) - 2 * (c * u) := by ring
          _ = 2 * (aZ * q) - 2 * (aZ * r) := by rw [h1, h2]
          _ = aZ * (((q : ZMod p) - r) + ((q : ZMod p) - r)) := by ring
      have gb : (2 * c) * ((v / 2 : ℕ) : ZMod p) = aZ * (q : ZMod p) := by
        calc (2 * c) * ((v / 2 : ℕ) : ZMod p) = c * ((2 : ZMod p) * ((v / 2 : ℕ) : ZMod p)) := by
              ring
          _ = c * (v : ZMod p) := by rw [hhalf]
          _ = aZ * q := h2
      by_cases hlt : v / 2 < v - u
      · rw [cond_swap_pos hlt, cond_swap_pos hlt]
        exact ⟨ht3lt, hq, gb, ga⟩
      · rw [cond_swap_neg hlt, cond_swap_neg hlt]
        exact ⟨hq, ht3lt, ga, gb⟩
    · -- u odd, v odd
      rw [if_pos hv]
      have hdeven : (v - u) % 2 = 0 := by omega
      have ht3 : ((add_mod r r p : ℕ) : ZMod p) = (r : ZMod p) + (r : ZMod p) := add_mod_cast'
      have ht3lt : add_mod r r p < p := add_mod_self_lt hr hpo
      have hhalf : (2 : ZMod p) * (((v - u) / 2 : ℕ) : ZMod p) = ((v - u : ℕ) : ZMod p) :=
        even_half_cast hdeven
      have ga : (2 * c) * (u : ZMod p) = aZ * ((add_mod r r p : ℕ) : ZMod p) := by
        rw [ht3]
        calc (2 * c) * (u : ZMod p) = 2 * (c * u) := by ring
          _ = 2 * (aZ * r) := by rw [h1]
          _ = aZ * ((r : ZMod p) + r) := by ring
      have gb : (2 * c) * (((v - u) / 2 : ℕ) : ZMod p) = aZ * ((sub_mod q r p : ℕ) : ZMod p) := by
        rw [hd2cast]
        calc (2 * c) * (((v - u) / 2 : ℕ) : ZMod p)
            = c * ((2 : ZMod p) * (((v - u) / 2 : ℕ) : ZMod p)) := by ring
          _ = c * ((v - u : ℕ) : ZMod p) := by rw [hhalf]
          _ = c * (v : ZMod p) - c * (u : ZMod p) := by rw [hcastd]; ring
          _ = aZ * ((q : ZMod p) - r) := by rw [h1, h2]; ring
      by_cases hlt : (v - u) / 2 < u
      · rw [cond_swap_pos hlt, cond_swap_pos hlt]
        exact ⟨ht3lt, hd2lt, gb, ga⟩
      · rw [cond_swap_neg hlt, cond_swap_neg hlt]
        exact ⟨hd2lt, ht3lt, ga, gb⟩

/-- The invariants of the `sict_mi` loop, by induction on the iteration count:
the `(u, v)` half follows the GCD engine, `q, r` stay in `[0, p)`, and the
scaled Bézout relations `2^k·u ≡ a·r`, `2^k·v ≡ a·q (mod p)` hold. -/
theorem mi_invariant {a p : ℕ} (hpo : p % 2 = 1) (hp2 : 2 ≤ p) (ha : a ≤ p) (k : ℕ) :
    ((mi_step p)^[k] ((a, p), (0, 1))).2.1 < p ∧
    ((mi_step p)^[k] ((a, p), (0, 1))).2.2 < p ∧
    ((2 ^ k : ZMod p) * ((((mi_step p)^[k] ((a, p), (0, 1))).1.1 : ℕ) : ZMod p)
       = (a : ZMod p) * ((((mi_step p)^[k] ((a, p), (0, 1))).2.2 : ℕ) : ZMod p)) ∧
    ((2 ^ k : ZMod p) * ((((mi_step p)^[k] ((a, p), (0, 1))).1.2 : ℕ) : ZMod p)
       = (a : ZMod p) * ((((mi_step p)^[k] ((a, p), (0, 1))).2.1 : ℕ) : ZMod p)) := by
  induction k with
  | zero =>
    simp only [Function.iterate_zero, id_eq]
    refine ⟨by omega, by omega, by simp, by simp [ZMod.natCast_self]⟩
  | succ n ih =>
    obtain ⟨hq, hr, h1, h2⟩ := ih
    have hfst := mi_iter_fst p a n
    have hsorted : ((mi_step p)^[n] ((a, p), (0, 1))).1.1
        ≤ ((mi_step p)^[n] ((a, p), (0, 1))).1.2 := by
      rw [hfst]
      exact gcd_iter_sorted ha n
    have hstate : (mi_step p)^[n] ((a, p), (0, 1)) =
        ((((mi_step p)^[n] ((a, p), (0, 1))).1.1, ((mi_step p)^[n] ((a, p), (0, 1))).1.2),
         (((mi_step p)^[n] ((a, p), (0, 1))).2.1, ((mi_step p)^[n] ((a, p), (0, 1))).2.2)) := rfl
    have hstep := mi_step_inv hpo hsorted hq hr (2 ^ n : ZMod p) (a : ZMod p) h1 h2
    rw [Function.iterate_succ_apply', hstate]
    refine ⟨hstep.1, hstep.2.1, ?_, ?_⟩
    · have := hstep.2.2.1
      rw [pow_succ]
      calc (2 ^ n * 2 : ZMod p) * _ = (2 * 2 ^ n : ZMod p) * _ := by ring_nf
        _ = _ := this
    · have := hstep.2.2.2
      rw [pow_succ]
      calc (2 ^ n * 2 : ZMod p) * _ = (2 * 2 ^ n : ZMod p) * _ := by ring_nf
        _ = _ := this

/-- `sict_mi` is correct: on the documented domain with `gcd(a, p) = 1` it
returns `some x` with `x < p` and `x * a ≡ 1 (mod p)`. -/
theorem sict_mi_correct {a p : ℕ} (hpo : p % 2 = 1) (hp2 : 1 < p) (ha : a < p)
    (hg : Nat.gcd a p = 1) :
    ∃ x, sict_mi a p = some x ∧ x < p ∧ x * a % p = 1 := by
  have hale : a ≤ p := le_of_lt ha
  have hg2 : ¬(a % 2 = 0 ∧ p % 2 = 0) := by omega
  have hN := gcd_engine hale hg2
  have hfst := mi_iter_fst p a (2 * Nat.size p)
  obtain ⟨hq, hr, h1, h2⟩ := mi_invariant hpo (by omega) hale (2 * Nat.size p)
  set N := 2 * Nat.size p with hNdef
  set s := (mi_step p)^[N] ((a, p), (0, 1)) with hs
  have hv1 : s.1.2 = 1 := by
    rw [hfst, hN, hg]
  unfold sict_mi
  rw [if_pos ⟨hale, by omega⟩]
  simp only [← hs, hv1, if_pos rfl]
  refine ⟨div2l_mod s.2.1 p, rfl, ?_, ?_⟩
  · exact div2l_iter_lt _ hq
  · -- in ZMod p: a * q_N = 2^N and 2^N * result = q_N, with 2^N a unit
    have hZ1 : (2 ^ N : ZMod p) = (a : ZMod p) * (s.2.1 : ZMod p) := by
      have := h2
      rw [hv1] at this
      simpa using this
    have hZ2 : (2 ^ N : ZMod p) * ((div2l_mod s.2.1 p : ℕ) : ZMod p) = (s.2.1 : ZMod p) := by
      have := div2l_iter_cast hpo N s.2.1
      simpa [div2l_mod, hNdef] using this
    have hunit : IsUnit (2 ^ N : ZMod p) := by
      have h2u : IsUnit (2 : ZMod p) := by
        have : IsUnit ((2 : ℕ) : ZMod p) := by
          rw [ZMod.isUnit_iff_coprime]
          exact Nat.coprime_two_left.2 (Nat.odd_iff.2 hpo)
        simpa using this
      exact h2u.pow N
    have key : (2 ^ N : ZMod p) * (((div2l_mod s.2.1 p * a : ℕ) : ZMod p))
        = (2 ^ N : ZMod p) * 1 := by
      push_cast
      calc (2 ^ N : ZMod p) * (((div2l_mod s.2.1 p : ℕ) : ZMod p) * (a : ZMod p))
          = ((2 ^ N : ZMod p) * ((div2l_mod s.2.1 p : ℕ) : ZMod p)) * (a : ZMod p) := by ring
        _ = (s.2.1 : ZMod p) * (a : ZMod p) := by rw [hZ2]
        _ = (a : ZMod p) * (s.2.1 : ZMod p) := by ring
        _ = (2 ^ N : ZMod p) := hZ1.symm
        _ = (2 ^ N : ZMod p) * 1 := by ring
    have hcast : ((div2l_mod s.2.1 p * a : ℕ) : ZMod p) = ((1 : ℕ) : ZMod p) := by
      have := hunit.mul_left_cancel key
      simpa using this
    have hmod := (ZMod.natCast_eq_natCast_iff' _ _ _).1 hcast
    rw [Nat.one_mod_eq_one.2 (by omega)] at hmod
    exact hmod

/-- `sict_mi` rejects (the `v == 1` postcondition fails) whenever
`gcd(a, p) ≠ 1`. -/
theorem sict_mi_noninvertible {a p : ℕ} (hpo : p % 2 = 1) (ha : a < p)
    (hg : Nat.gcd a p ≠ 1) :
    sict_mi a p = none := by
  have hale : a ≤ p := le_of_lt ha
  have hg2 : ¬(a % 2 = 0 ∧ p % 2 = 0) := by omega
  have hN := gcd_engine hale hg2
  have hfst := mi_iter_fst p a (2 * Nat.size p)
  have hv : ((mi_step p)^[2 * Nat.size p] ((a, p), (0, 1))).1.2 = Nat.gcd a p := by
    rw [hfst, hN]
  unfold sict_mi
  rw [if_pos ⟨hale, by omega⟩]
  simp only [hv]
  rw [if_neg hg]

/-! ## The ct-pres.py variant of `sict_mi` agrees with the modinv.py one -/

/-- For operands below an odd modulus, `add_mod x x p` is `x * 2 % p`. -/
theorem add_mod_self_eq_mul_two_mod {x p : ℕ} (hx : x < p) (hpo : p % 2 = 1) :
    add_mod x x p = x * 2 % p := by
  show (if x + x > p then x + x - p else x + x) = x * 2 % p
  rcases lt_or_ge (x * 2) p with h | h
  · rw [Nat.mod_eq_of_lt h]
    split_ifs <;> omega
  · have hne : x * 2 ≠ p := by omega
    have h2 : x * 2 - p < p := by omega
    rw [Nat.mod_eq_sub_mod h, Nat.mod_eq_of_lt h2]
    split_ifs <;> omega

/-- Branch-level characterisation of the ct-pres.py iteration. -/
theorem mi_step_ct_eq (p u v q r : ℕ) :
    mi_step_ct p ((u, v), (q, r)) =
      if u % 2 = 0 then
        (cond_swap (v - u) (u / 2) (decide (u / 2 < v - u)),
          ((cond_swap (sub_mod q r p * 2 % p) r (decide (u / 2 < v - u))).2,
           (cond_swap (sub_mod q r p * 2 % p) r (decide (u / 2 < v - u))).1))
      else if v % 2 = 1 then
        (cond_swap u ((v - u) / 2) (decide ((v - u) / 2 < u)),
          ((cond_swap (r * 2 % p) (sub_mod q r p) (decide ((v - u) / 2 < u))).2,
           (cond_swap (r * 2 % p) (sub_mod q r p) (decide ((v - u) / 2 < u))).1))
      else
        (cond_swap (v - u) (v / 2) (decide (v / 2 < v - u)),
          ((cond_swap (sub_mod q r p * 2 % p) q (decide (v / 2 < v - u))).2,
           (cond_swap (sub_mod q r p * 2 % p) q (decide (v / 2 < v - u))).1)) := by
  rcases Nat.mod_two_eq_zero_or_one u with hu | hu <;>
    rcases Nat.mod_two_eq_zero_or_one v with hv | hv <;>
    simp [mi_step_ct, select, hu, hv]

/-- On states with in-range cofactors the two loop bodies coincide. -/
theorem mi_step_ct_eq_mi_step {p : ℕ} (hpo : p % 2 = 1) {u v q r : ℕ}
    (hq : q < p) (hr : r < p) :
    mi_step_ct p ((u, v), (q, r)) = mi_step p ((u, v), (q, r)) := by
  have hd2 : sub_mod q r p < p := sub_mod_lt hq
  rw [mi_step_ct_eq, mi_step_eq,
    add_mod_self_eq_mul_two_mod hd2 hpo, add_mod_self_eq_mul_two_mod hr hpo]

/-- For `p > 1` the two sources define the same `sict_mi` function. -/
theorem sict_mi_ct_eq {a p : ℕ} (hp2 : 1 < p) : sict_mi_ct a p = sict_mi a p := by
  by_cases hg : a ≤ p ∧ p % 2 ≠ 0
  · have hpo : p % 2 = 1 := by omega
    have htraj : ∀ k, (mi_step_ct p)^[k] ((a, p), (0, 1)) = (mi_step p)^[k] ((a, p), (0, 1)) := by
      intro k
      induction k with
      | zero => rfl
      | succ n ih =>
        rw [Function.iterate_succ_apply', Function.iterate_succ_apply', ih]
        obtain ⟨hq, hr, -, -⟩ := mi_invariant hpo (by omega) hg.1 n
        have hstate : (mi_step p)^[n] ((a, p), (0, 1)) =
            ((((mi_step p)^[n] ((a, p), (0, 1))).1.1, ((mi_step p)^[n] ((a, p), (0, 1))).1.2),
             (((mi_step p)^[n] ((a, p), (0, 1))).2.1,
              ((mi_step p)^[n] ((a, p), (0, 1))).2.2)) := rfl
        rw [hstate]
        exact mi_step_ct_eq_mi_step hpo hq hr
    unfold sict_mi_ct sict_mi
    rw [if_pos hg, if_pos hg, htraj]
  · unfold sict_mi_ct sict_mi
    rw [if_neg hg, if_neg hg]

/-! ## Correctness of the adapters -/

/-- `gcd(a, n) = 1` with `n` even forces `a` odd. -/
theorem odd_of_coprime_even {a n : ℕ} (hn : n % 2 = 0) (hg : Nat.gcd a n = 1) :
    a % 2 = 1 := by
  by_contra h
  have h2 : 2 ∣ Nat.gcd a n := Nat.dvd_gcd (by omega) (by omega)
  rw [hg] at h2
  omega

/-- Full specification of `sict_mi_a_odd` on its documented domain: the inner
inverse succeeds, the division defining `k` is exact, and the result `n - k`
is the inverse of `a` modulo `n`. -/
theorem sict_mi_a_odd_correct {a n : ℕ} (ha1 : 1 < a) (hao : a % 2 = 1) (hn : 1 < n)
    (hg : Nat.gcd a n = 1) :
    ∃ n1 k, sict_mi_ct (n % a) a = some n1 ∧
      k = (n * n1 - 1) / a ∧ a * k = n * n1 - 1 ∧
      sict_mi_a_odd a n = some (n - k) ∧
      0 < n - k ∧ n - k < n ∧ (n - k) * a % n = 1 := by
  have hct : sict_mi_ct (n % a) a = sict_mi (n % a) a := sict_mi_ct_eq ha1
  have hmoda : n % a < a := Nat.mod_lt _ (by omega)
  have hgin : Nat.gcd (n % a) a = 1 := by
    rw [← Nat.gcd_rec a n]
    exact hg
  obtain ⟨n1, hsome, hn1lt, hn1inv⟩ := sict_mi_correct hao ha1 hmoda hgin
  have hmm : n * n1 % a = 1 := by
    have h1 : n % a * n1 % a = n * n1 % a := Nat.mod_mul_mod
    rw [← h1, Nat.mul_comm (n % a) n1]
    exact hn1inv
  have hn1pos : 1 ≤ n1 := by
    rcases Nat.eq_zero_or_pos n1 with h0 | h0
    · exfalso
      rw [h0, Nat.mul_zero, Nat.zero_mod] at hmm
      omega
    · exact h0
  have hdm0 : n * n1 = a * (n * n1 / a) + 1 := by
    have := Nat.div_add_mod (n * n1) a
    omega
  set m := n * n1 / a with hmdef
  have hdm : n * n1 = a * m + 1 := hdm0
  have hkm : (n * n1 - 1) / a = m := by
    have h1 : n * n1 - 1 = a * m := by omega
    rw [h1]
    exact Nat.mul_div_cancel_left m (by omega)
  have hmn : m < n := by
    have h1 : n * n1 ≤ n * (a - 1) := Nat.mul_le_mul_left n (by omega)
    have h2 : n * (a - 1) = n * a - n := by
      rw [Nat.mul_sub_one]
    have h3 : a * m < a * n := by
      have : a * m + 1 ≤ n * a - n := by omega
      have hna : n ≤ n * a := Nat.le_mul_of_pos_right n (by omega)
      calc a * m < n * a - n + n := by omega
        _ = n * a := by omega
        _ = a * n := Nat.mul_comm n a
    exact Nat.lt_of_mul_lt_mul_left h3
  have hm1 : 1 ≤ m := by
    rcases Nat.eq_zero_or_pos m with h0 | h0
    · exfalso
      rw [h0, Nat.mul_zero, Nat.add_zero] at hdm
      have hdvd : n ∣ 1 := ⟨n1, hdm.symm⟩
      have := Nat.dvd_one.1 hdvd
      omega
    · exact h0
  refine ⟨n1, m, by rw [hct]; exact hsome, hkm.symm, by omega, ?_, by omega, by omega, ?_⟩
  · unfold sict_mi_a_odd
    rw [if_pos ⟨ha1, hn⟩, hct, hsome]
    show some (n - (n * n1 - 1) / a) = some (n - m)
    rw [hkm]
  · -- (n - m) * a ≡ 1 (mod n), via ZMod n
    have hcast : (((n - m) * a : ℕ) : ZMod n) = ((1 : ℕ) : ZMod n) := by
      have hsub : ((n - m : ℕ) : ZMod n) = -(m : ZMod n) := by
        push_cast [Nat.cast_sub (le_of_lt hmn)]
        simp [ZMod.natCast_self]
      have ham : ((a * m : ℕ) : ZMod n) = -1 := by
        have h1 : ((n * n1 : ℕ) : ZMod n) = 0 := by
          push_cast
          simp [ZMod.natCast_self]
        have h2 : ((a * m + 1 : ℕ) : ZMod n) = 0 := by
          rw [← hdm]
          exact h1
        push_cast at h2 ⊢
        linear_combination h2
      push_cast [hsub] at *
      calc -(m : ZMod n) * (a : ZMod n) = -((a : ZMod n) * m) := by ring
        _ = -(-1) := by rw [ham]
        _ = 1 := by ring
    have hmod := (ZMod.natCast_eq_natCast_iff' _ _ _).1 hcast
    rw [Nat.one_mod_eq_one.2 (by omega)] at hmod
    exact hmod

/-- Correctness of `sict_mi_2mod4` on its documented domain. -/
theorem sict_mi_2mod4_correct {a n : ℕ} (hn4 : n % 4 = 2) (ha0 : 0 < a) (han : a < n)
    (hg : Nat.gcd a n = 1) :
    ∃ x, sict_mi_2mod4 a n = some x ∧ x < n ∧ x * a % n = 1 := by
  have hn2o : (n / 2) % 2 = 1 := by omega
  have hn2n : 2 * (n / 2) = n := by omega
  have haodd : a % 2 = 1 := odd_of_coprime_even (by omega) hg
  rcases eq_or_ne n 2 with h2 | h2
  · -- n = 2, hence a = 1; direct evaluation
    subst h2
    have ha : a = 1 := by omega
    subst ha
    have hev : sict_mi_ct 0 1 = some 0 := by
      simp only [sict_mi_ct, Nat.size_one, div2l_mod]
      decide
    refine ⟨1, ?_, by omega, by norm_num⟩
    unfold sict_mi_2mod4
    rw [if_pos ⟨by omega, by omega, by omega⟩]
    norm_num
    rw [hev]
    rfl
  · -- n ≥ 6, the inner modulus n/2 is odd and > 1
    have hn6 : 6 ≤ n := by omega
    have hn21 : 1 < n / 2 := by omega
    have hct : sict_mi_ct (a % (n / 2)) (n / 2) = sict_mi (a % (n / 2)) (n / 2) :=
      sict_mi_ct_eq hn21
    have hmodlt : a % (n / 2) < n / 2 := Nat.mod_lt _ (by omega)
    have hgin : Nat.gcd (a % (n / 2)) (n / 2) = 1 := by
      have hdvd : Nat.gcd a (n / 2) ∣ Nat.gcd a n :=
        Nat.dvd_gcd (Nat.gcd_dvd_left a (n / 2))
          (dvd_trans (Nat.gcd_dvd_right a (n / 2)) ⟨2, by omega⟩)
      rw [hg] at hdvd
      have hg2 : Nat.gcd a (n / 2) = 1 := Nat.dvd_one.1 hdvd
      have := Nat.gcd_rec (n / 2) a
      rw [Nat.gcd_comm (n / 2) a] at this
      rw [← this]
      exact hg2
    obtain ⟨i2, hsome, hi2lt, hi2inv⟩ := sict_mi_correct hn2o hn21 hmodlt hgin
    refine ⟨select i2 (i2 + n / 2) (decide (i2 % 2 = 0)), ?_, ?_, ?_⟩
    · unfold sict_mi_2mod4
      rw [if_pos ⟨ha0, han, hn4⟩]
      show (match sict_mi_ct (a % (n / 2)) (n / 2) with
        | none => none
        | some i2 => some (select i2 (i2 + n / 2) (decide (i2 % 2 = 0)))) = _
      rw [hct, hsome]
    · unfold select
      split_ifs <;> omega
    · -- correctness modulo n = 2 * (n/2) by CRT
      set x := select i2 (i2 + n / 2) (decide (i2 % 2 = 0)) with hxdef
      have hxmod : x ≡ i2 [MOD n / 2] := by
        unfold select at hxdef
        split_ifs at hxdef
        · rw [hxdef]
          exact (Nat.add_modEq_right).trans Nat.ModEq.rfl
        · rw [hxdef]
      have hxodd : x % 2 = 1 := by
        unfold select at hxdef
        split_ifs at hxdef with hpar
        · simp only [decide_eq_true_eq] at hpar
          omega
        · simp only [decide_eq_true_eq] at hpar
          omega
      have hmod2 : x * a ≡ 1 [MOD 2] := by
        show x * a % 2 = 1 % 2
        rw [Nat.mul_mod, hxodd, haodd]
      have hmodn2 : x * a ≡ 1 [MOD n / 2] := by
        calc x * a ≡ i2 * a [MOD n / 2] := hxmod.mul_right a
          _ ≡ i2 * (a % (n / 2)) [MOD n / 2] := (Nat.mod_modEq a (n / 2)).symm.mul_left i2
          _ ≡ 1 [MOD n / 2] := by
              show i2 * (a % (n / 2)) % (n / 2) = 1 % (n / 2)
              rw [Nat.one_mod_eq_one.2 (by omega)]
              exact hi2inv
      have hcop : Nat.Coprime 2 (n / 2) := Nat.coprime_two_left.2 (Nat.odd_iff.2 hn2o)
      have hcomb := (Nat.modEq_and_modEq_iff_modEq_mul hcop).1 ⟨hmod2, hmodn2⟩
      rw [hn2n] at hcomb
      have : x * a % n = 1 % n := hcomb
      rw [Nat.one_mod_eq_one.2 (by omega)] at this
      exact this

/-! ## Equivalence of the three GCD formulations (gcd.py) -/

/-- `max_min` returns the pair sorted in decreasing order. -/
theorem max_min_eq (x y : ℕ) : max_min x y = (max x y, min x y) := by
  unfold max_min
  split_ifs with h
  · rw [max_eq_left (by omega), min_eq_right (by omega)]
  · rw [max_eq_right (by omega), min_eq_left (by omega)]

/-- Case characterisation of one `si_gcd` iteration: identical to the one of
`sict_gcd2` (`gcd_step_char`). -/
theorem si_step_char (u v : ℕ) :
    si_step (u, v) =
      if u % 2 = 0 then (min (u / 2) (v - u), max (u / 2) (v - u))
      else if v % 2 = 1 then (min u ((v - u) / 2), max u ((v - u) / 2))
      else (min (v / 2) (v - u), max (v / 2) (v - u)) := by
  rcases Nat.mod_two_eq_zero_or_one u with hu | hu <;>
    rcases Nat.mod_two_eq_zero_or_one v with hv | hv <;>
      simp [si_step, max_min_eq, hu, hv, min_comm, max_comm]

/-- The branching loop body (`si_gcd`) and the select/cond_swap loop body
(`sict_gcd2`) compute the same function on every state. -/
theorem si_step_eq_gcd_step (s : ℕ × ℕ) : si_step s = gcd_step s := by
  obtain ⟨u, v⟩ := s
  rw [si_step_char, gcd_step_char]

/-- `si_gcd` and `sict_gcd2` are the same function, on all inputs. -/
theorem si_gcd_eq_sict_gcd2 (x y : ℕ) : si_gcd x y = sict_gcd2 x y := by
  have h : si_step = gcd_step := funext si_step_eq_gcd_step
  unfold si_gcd sict_gcd2
  rw [h]

/-- The `sict_gcd` loop body, zeta-reduced. -/
theorem sict_step_eval (u v : ℤ) :
    sict_step (u, v) =
      if Int.fdiv (u % 2 * v + (2 - 2 * (u % 2) - v % 2) * u) 2 ≥
          (u % 2 + v % 2) % 2 * v + (2 * (u % 2) * (v % 2) - 1) * u then
        ((u % 2 + v % 2) % 2 * v + (2 * (u % 2) * (v % 2) - 1) * u,
          Int.fdiv (u % 2 * v + (2 - 2 * (u % 2) - v % 2) * u) 2)
      else
        (Int.fdiv (u % 2 * v + (2 - 2 * (u % 2) - v % 2) * u) 2,
          (u % 2 + v % 2) % 2 * v + (2 * (u % 2) * (v % 2) - 1) * u) := rfl

/-- On sorted, not-both-even states the signed arithmetic body of `sict_gcd`
coincides with the `sict_gcd2` body under the embedding `ℕ → ℤ`. -/
theorem sict_step_cast {u v : ℕ} (huv : u ≤ v) (hpar : ¬(u % 2 = 0 ∧ v % 2 = 0)) :
    sict_step ((u : ℤ), (v : ℤ)) =
      (((gcd_step (u, v)).1 : ℤ), ((gcd_step (u, v)).2 : ℤ)) := by
  rcases Nat.mod_two_eq_zero_or_one u with hu | hu <;>
    rcases Nat.mod_two_eq_zero_or_one v with hv | hv
  · exact absurd ⟨hu, hv⟩ hpar
  · -- u even, v odd
    have h1 : (gcd_step (u, v)).1 = min (u / 2) (v - u) := by rw [gcd_step_char, if_pos hu]
    have h2 : (gcd_step (u, v)).2 = max (u / 2) (v - u) := by rw [gcd_step_char, if_pos hu]
    have hs : (u : ℤ) % 2 = 0 := by omega
    have hz : (v : ℤ) % 2 = 1 := by omega
    rw [h1, h2, sict_step_eval, hs, hz, Int.fdiv_eq_ediv _ (show (0 : ℤ) ≤ 2 by norm_num)]
    norm_num
    split_ifs with hc <;> rw [Prod.mk.injEq] <;> constructor <;> omega
  · -- u odd, v even
    have h1 : (gcd_step (u, v)).1 = min (v / 2) (v - u) := by
      rw [gcd_step_char, if_neg (by omega), if_neg (by omega)]
    have h2 : (gcd_step (u, v)).2 = max (v / 2) (v - u) := by
      rw [gcd_step_char, if_neg (by omega), if_neg (by omega)]
    have hs : (u : ℤ) % 2 = 1 := by omega
    have hz : (v : ℤ) % 2 = 0 := by omega
    rw [h1, h2, sict_step_eval, hs, hz, Int.fdiv_eq_ediv _ (show (0 : ℤ) ≤ 2 by norm_num)]
    norm_num
    split_ifs with hc <;> rw [Prod.mk.injEq] <;> constructor <;> omega
  · -- both odd
    have h1 : (gcd_step (u, v)).1 = min u ((v - u) / 2) := by
      rw [gcd_step_char, if_neg (by omega), if_pos hv]
    have h2 : (gcd_step (u, v)).2 = max u ((v - u) / 2) := by
      rw [gcd_step_char, if_neg (by omega), if_pos hv]
    have hs : (u : ℤ) % 2 = 1 := by omega
    have hz : (v : ℤ) % 2 = 1 := by omega
    rw [h1, h2, sict_step_eval, hs, hz, Int.fdiv_eq_ediv _ (show (0 : ℤ) ≤ 2 by norm_num)]
    norm_num
    split_ifs with hc <;> rw [Prod.mk.injEq] <;> constructor <;> omega

/-- Sortedness and the not-both-even parity invariant hold at every iterate. -/
theorem gcd_iter_inv {a p : ℕ} (h : a ≤ p) (hpar : ¬(a % 2 = 0 ∧ p % 2 = 0)) (k : ℕ) :
    (gcd_step^[k] (a, p)).1 ≤ (gcd_step^[k] (a, p)).2 ∧
      ¬((gcd_step^[k] (a, p)).1 % 2 = 0 ∧ (gcd_step^[k] (a, p)).2 % 2 = 0) := by
  induction k with
  | zero => exact ⟨h, hpar⟩
  | succ n ih =>
    rw [Function.iterate_succ_apply']
    obtain ⟨h1, h2⟩ := ih
    constructor
    · have := gcd_step_sorted (gcd_step^[n] (a, p)).1 (gcd_step^[n] (a, p)).2
      simpa using this
    · have := gcd_step_parity h1 h2
      simpa using this

/-- The `sict_gcd` iteration over `ℤ` follows the `sict_gcd2` iteration. -/
theorem sict_iter_cast {a p : ℕ} (h : a ≤ p) (hpar : ¬(a % 2 = 0 ∧ p % 2 = 0)) (k : ℕ) :
    sict_step^[k] ((a : ℤ), (p : ℤ)) =
      (((gcd_step^[k] (a, p)).1 : ℤ), ((gcd_step^[k] (a, p)).2 : ℤ)) := by
  induction k with
  | zero => rfl
  | succ n ih =>
    rw [Function.iterate_succ_apply', Function.iterate_succ_apply', ih]
    obtain ⟨h1, h2⟩ := gcd_iter_inv h hpar n
    have := sict_step_cast h1 h2
    simpa using this

/-- `sict_gcd` agrees with `sict_gcd2` up to the embedding `ℕ → ℤ`, on all
inputs (both reject exactly the same inputs). -/
theorem sict_gcd_eq_sict_gcd2 (p a : ℕ) :
    sict_gcd p a = Option.map (fun n : ℕ => (n : ℤ)) (sict_gcd2 p a) := by
  unfold sict_gcd sict_gcd2
  by_cases hg : a ≤ p ∧ (p % 2 ≠ 0 ∨ a % 2 ≠ 0)
  · rw [if_pos hg, if_pos hg]
    obtain ⟨h, hpar⟩ := hg
    rw [sict_iter_cast h (by omega) (2 * Nat.size p)]
    rfl
  · rw [if_neg hg, if_neg hg]
    rfl

/-! ## Iteration counting -/

/-- Threading a counter through any loop body: after `n` steps the counter has
increased by exactly `n`, whatever the state. -/
theorem counter_iterate {α : Type} (g : α → α) :
    ∀ (n : ℕ) (s : α) (c : ℕ),
      ((fun sc : α × ℕ => (g sc.1, sc.2 + 1))^[n] (s, c)).2 = c + n := by
  intro n
  induction n with
  | zero => intro s c; rfl
  | succ m ih =>
    intro s c
    have hb : (g (s, c).1, (s, c).2 + 1) = (g s, c + 1) := rfl
    rw [Function.iterate_succ_apply, hb, ih (g s) (c + 1)]
    omega

/-- The `sict_gcd2` loop runs exactly `2 * bitlen p` iterations, for every
input `a`. -/
theorem sict_gcd2_iters_eq (p a : ℕ) : sict_gcd2_iters p a = 2 * Nat.size p := by
  unfold sict_gcd2_iters
  rw [counter_iterate gcd_step (2 * Nat.size p) (a, p) 0]
  omega

/-- The `sict_mi` loop runs exactly `2 * bitlen p` iterations, for every
input `a`. -/
theorem sict_mi_iters_eq (p a : ℕ) : sict_mi_iters p a = 2 * Nat.size p := by
  unfold sict_mi_iters
  rw [counter_iterate (mi_step p) (2 * Nat.size p) ((a, p), (0, 1)) 0]
  omega

/-! ## Range invariant -/

/-- Both components of every iterate stay at most `p`. -/
theorem gcd_iter_le {a p : ℕ} (h : a ≤ p) (k : ℕ) :
    (gcd_step^[k] (a, p)).1 ≤ p ∧ (gcd_step^[k] (a, p)).2 ≤ p := by
  induction k with
  | zero => exact ⟨h, le_refl p⟩
  | succ n ih =>
    rw [Function.iterate_succ_apply']
    have hs := gcd_iter_sorted h n
    have h2 : (gcd_step (gcd_step^[n] (a, p))).2 ≤ (gcd_step^[n] (a, p)).2 := by
      have := gcd_step_snd_le hs
      simpa using this
    have h1 : (gcd_step (gcd_step^[n] (a, p))).1 ≤ (gcd_step (gcd_step^[n] (a, p))).2 := by
      have := gcd_step_sorted (gcd_step^[n] (a, p)).1 (gcd_step^[n] (a, p)).2
      simpa using this
    exact ⟨le_trans h1 (le_trans h2 ih.2), le_trans h2 ih.2⟩

/-! ## Claim theorems -/

/-- C1: for every odd modulus `p` with `p > 1` and every `a < p` with
`gcd(a, p) = 1`, `sict_mi a p` returns a value `x` with `0 ≤ x < p` and
`(x * a) % p = 1`; in particular `sict_mi 1 p = some 1` for every odd
`p > 1`. -/
theorem C1_mod_inverse_correct {a p : ℕ} (hpo : p % 2 = 1) (hp2 : 1 < p) (ha : a < p)
    (hg : Nat.gcd a p = 1) :
    (∃ x, sict_mi a p = some x ∧ x < p ∧ x * a % p = 1) ∧ sict_mi 1 p = some 1 := by
  refine ⟨sict_mi_correct hpo hp2 ha hg, ?_⟩
  obtain ⟨x, hx, hxp, hx1⟩ := sict_mi_correct hpo hp2 hp2 (Nat.gcd_one_left p)
  have hx2 : x = 1 := by
    rw [mul_one, Nat.mod_eq_of_lt hxp] at hx1
    exact hx1
  rw [hx2] at hx
  exact hx

/-- Witness for C1 at the concrete input `a = 3`, `p = 5`. -/
theorem C1_witness :
    (∃ x, sict_mi 3 5 = some x ∧ x < 5 ∧ x * 3 % 5 = 1) ∧ sict_mi 1 5 = some 1 :=
  C1_mod_inverse_correct (by decide) (by decide) (by decide) (by decide)

/-- C2: for every pair `p ≥ a ≥ 0` with at least one of `p, a` odd,
`sict_gcd2 p a` returns `gcd(p, a)`; in particular `sict_gcd2 1 0 = some 1`. -/
theorem C2_gcd_correct {p a : ℕ} (h : a ≤ p) (hpar : p % 2 ≠ 0 ∨ a % 2 ≠ 0) :
    sict_gcd2 p a = some (Nat.gcd p a) ∧ sict_gcd2 1 0 = some 1 := by
  refine ⟨sict_gcd2_correct h hpar, ?_⟩
  have h10 := @sict_gcd2_correct 1 0 (by decide) (by decide)
  simpa using h10

/-- Witness for C2 at the concrete input `p = 9`, `a = 6`. -/
theorem C2_witness :
    sict_gcd2 9 6 = some (Nat.gcd 9 6) ∧ sict_gcd2 1 0 = some 1 :=
  C2_gcd_correct (by decide) (by decide)

/-- C3: for every odd `p` and every `a < p` with `gcd(a, p) ≠ 1`, the
modular inverse signals a distinct, explicit error (the embedding of the
failing `assert v == 1`, `none`) and never a numeric value. -/
theorem C3_noninvertible_error {a p : ℕ} (hpo : p % 2 = 1) (ha : a < p)
    (hg : Nat.gcd a p ≠ 1) : sict_mi a p = none :=
  sict_mi_noninvertible hpo ha hg

/-- Witness for C3 at the concrete input `a = 3`, `p = 9` (`gcd = 3`). -/
theorem C3_witness : sict_mi 3 9 = none :=
  C3_noninvertible_error (by decide) (by decide) (by decide)

/-- C4 (amended): for every modulus `p` and every operand `a`, both the
`sict_gcd2` loop and the `sict_mi` loop execute exactly `2 * bitlen p`
iterations—independent of the value of `a`, but determined by the bit length
of `p` itself, not by a fixed public width `W` covering `p`. -/
theorem C4_iteration_count (p a : ℕ) :
    sict_gcd2_iters p a = 2 * Nat.size p ∧ sict_mi_iters p a = 2 * Nat.size p :=
  ⟨sict_gcd2_iters_eq p a, sict_mi_iters_eq p a⟩

/-- Counterexample to C4 as stated: `p = 5` and `p = 17` both fit in the
public width `W = 5` bits, yet the loop runs `6` iterations for the former
and `10` for the latter, so the count is not a function of `W` alone. -/
theorem C4_counterexample :
    (5 : ℕ) < 2 ^ 5 ∧ (17 : ℕ) < 2 ^ 5 ∧ (1 : ℕ) < 2 ^ 5 ∧
      sict_gcd2_iters 5 1 = 6 ∧ sict_gcd2_iters 17 1 = 10 := by
  have h5 : Nat.size 5 = 3 := size_eq_of_lt (by norm_num) (by norm_num)
  have h17 : Nat.size 17 = 5 := size_eq_of_lt (by norm_num) (by norm_num)
  refine ⟨by norm_num, by norm_num, by norm_num, ?_, ?_⟩
  · rw [sict_gcd2_iters_eq 5 1, h5]
  · rw [sict_gcd2_iters_eq 17 1, h17]

/-- C5 (amended): for every odd `a` with `a > 1` (the source asserts
`a > 1`, rejecting `a = 1`) and every `n > 1` with `gcd(a, n) = 1`,
`sict_mi_a_odd a n` computes `n1 = n⁻¹ mod a`, the exact quotient
`k = (n·n1 - 1) / a` (the division leaves no remainder), and returns
`n - k`, which is `a⁻¹ mod n`. -/
theorem C5_a_odd_correct {a n : ℕ} (ha1 : 1 < a) (hao : a % 2 = 1) (hn : 1 < n)
    (hg : Nat.gcd a n = 1) :
    ∃ n1 k, sict_mi_ct (n % a) a = some n1 ∧ k = (n * n1 - 1) / a ∧
      a * k = n * n1 - 1 ∧ sict_mi_a_odd a n = some (n - k) ∧
      0 < n - k ∧ n - k < n ∧ (n - k) * a % n = 1 :=
  sict_mi_a_odd_correct ha1 hao hn hg

/-- Witness for C5 at the concrete input `a = 3`, `n = 10`. -/
theorem C5_witness :
    ∃ n1 k, sict_mi_ct (10 % 3) 3 = some n1 ∧ k = (10 * n1 - 1) / 3 ∧
      3 * k = 10 * n1 - 1 ∧ sict_mi_a_odd 3 10 = some (10 - k) ∧
      0 < 10 - k ∧ 10 - k < 10 ∧ (10 - k) * 3 % 10 = 1 :=
  C5_a_odd_correct (by decide) (by decide) (by decide) (by decide)

/-- Counterexample to C5 as stated: `a = 1` is odd and coprime to `n = 2 > 1`,
yet `sict_mi_a_odd 1 2` rejects the input (the source asserts `a > 1`)
instead of returning the inverse `1`. -/
theorem C5_counterexample :
    (1 : ℕ) % 2 = 1 ∧ Nat.gcd 1 2 = 1 ∧ (1 : ℕ) < 2 ∧
      sict_mi_a_odd 1 2 = none := by decide

/-- C6: for every modulus `n ≡ 2 (mod 4)` and every `0 < a < n` with
`gcd(a, n) = 1`, `sict_mi_2mod4 a n` returns `a⁻¹ mod n`, selecting via
`select` on the parity of `i2 = a⁻¹ mod (n/2)` whichever of `i2`,
`i2 + n/2` is odd; in particular `sict_mi_2mod4 3 10 = some 7`. -/
theorem C6_2mod4_correct {a n : ℕ} (hn4 : n % 4 = 2) (ha0 : 0 < a) (han : a < n)
    (hg : Nat.gcd a n = 1) :
    (∃ x, sict_mi_2mod4 a n = some x ∧ x < n ∧ x * a % n = 1) ∧
      sict_mi_2mod4 3 10 = some 7 := by
  refine ⟨sict_mi_2mod4_correct hn4 ha0 han hg, ?_⟩
  have hct : sict_mi_ct 3 5 = some 2 := by
    obtain ⟨x, hx, hxlt, hxm⟩ :=
      @sict_mi_correct 3 5 (by decide) (by decide) (by decide) (by decide)
    have hx2 : x = 2 := by omega
    rw [sict_mi_ct_eq (by norm_num), hx, hx2]
  unfold sict_mi_2mod4
  rw [if_pos (show (0 : ℕ) < 3 ∧ 3 < 10 ∧ 10 % 4 = 2 by norm_num)]
  norm_num
  rw [hct]
  decide

/-- Witness for C6 at the concrete input `a = 3`, `n = 10`. -/
theorem C6_witness :
    (∃ x, sict_mi_2mod4 3 10 = some x ∧ x < 10 ∧ x * 3 % 10 = 1) ∧
      sict_mi_2mod4 3 10 = some 7 :=
  C6_2mod4_correct (by decide) (by decide) (by decide) (by decide)

/-- C7 (amended): the even-modulus adapter `sict_mi_2mod4` accepts only
moduli with `n % 4 = 2` (the source asserts `n % 4 == 2`); for every other
modulus—in particular every `n = 2^k·m` with `m` odd and `k > 1`—it rejects
the input rather than recursing on the even part. -/
theorem C7_only_2mod4 {a n : ℕ} (hn4 : n % 4 ≠ 2) : sict_mi_2mod4 a n = none := by
  have hc : ¬(0 < a ∧ a < n ∧ n % 4 = 2) := fun h => hn4 h.2.2
  unfold sict_mi_2mod4
  rw [if_neg hc]

/-- Witness for C7 at the concrete input `a = 7`, `n = 12`. -/
theorem C7_witness : sict_mi_2mod4 7 12 = none :=
  C7_only_2mod4 (by decide)

/-- Counterexample to C7 as stated: `n = 12 = 2^2·3` has `k = 2 > 1` and
`gcd(7, 12) = 1` with `7` self-inverse modulo `12`, yet the adapter returns
an error instead of the inverse. -/
theorem C7_counterexample :
    (12 : ℕ) = 2 ^ 2 * 3 ∧ Nat.gcd 7 12 = 1 ∧ (0 : ℕ) < 7 ∧ (7 : ℕ) < 12 ∧
      7 * 7 % 12 = 1 ∧ sict_mi_2mod4 7 12 = none := by decide

/-- C8 (amended): across every iteration of `sict_gcd2` and of `sict_mi`
started from `u = a ≤ v = p`, the working values satisfy
`0 ≤ u ≤ v ≤ p`—the closed interval `[0, p]`, not the half-open `[0, p)`
of the claim, since `v = p` at initialisation. -/
theorem C8_bounded {a p : ℕ} (h : a ≤ p) (k : ℕ) :
    ((gcd_step^[k] (a, p)).1 ≤ (gcd_step^[k] (a, p)).2 ∧ (gcd_step^[k] (a, p)).2 ≤ p) ∧
      (((mi_step p)^[k] ((a, p), (0, 1))).1.1 ≤ p ∧
        ((mi_step p)^[k] ((a, p), (0, 1))).1.2 ≤ p) := by
  have h1 := gcd_iter_le h k
  have h2 := gcd_iter_sorted h k
  have h3 := mi_iter_fst p a k
  exact ⟨⟨h2, h1.2⟩, by rw [h3]; exact h1⟩

/-- Witness for C8 at the concrete input `a = 1`, `p = 3`, `k = 2`. -/
theorem C8_witness :
    ((gcd_step^[2] ((1 : ℕ), 3)).1 ≤ (gcd_step^[2] ((1 : ℕ), 3)).2 ∧
        (gcd_step^[2] ((1 : ℕ), 3)).2 ≤ 3) ∧
      (((mi_step 3)^[2] (((1 : ℕ), 3), (0, 1))).1.1 ≤ 3 ∧
        ((mi_step 3)^[2] (((1 : ℕ), 3), (0, 1))).1.2 ≤ 3) :=
  C8_bounded (by decide) 2

/-- Counterexample to C8 as stated: at initialisation (iteration `0`) with
the valid input `a = 0`, `p = 3`, the working value `v` equals `3 = p`, which
is not in the half-open interval `[0, p)`, in either engine. -/
theorem C8_counterexample :
    (0 : ℕ) ≤ 3 ∧ (gcd_step^[0] ((0 : ℕ), 3)).2 = 3 ∧
      ¬((gcd_step^[0] ((0 : ℕ), 3)).2 < 3) ∧
      ¬(((mi_step 3)^[0] (((0 : ℕ), 3), (0, 1))).1.2 < 3) := by decide

/-- C9: `add_mod` does NOT compute `(x + y) mod n` on its documented domain:
at `x = 1, y = 2, n = 3` (both operands in `[0, n)`) it returns `3 = n`,
outside `[0, n)` and different from `(1 + 2) % 3 = 0`—the source's guard
`z > n` misses the boundary case `z = n`. -/
theorem C9_add_mod_bug :
    add_mod 1 2 3 = 3 ∧ (1 + 2) % 3 = 0 ∧ add_mod 1 2 3 ≠ (1 + 2) % 3 ∧
      ¬(add_mod 1 2 3 < 3) := by decide

/-- C10: on the valid domain `x ≥ y ≥ 0` with at least one of `x, y` odd, the
three GCD formulations of gcd.py agree extensionally: `si_gcd x y` equals
`sict_gcd2 x y`, `sict_gcd x y` is its image under the embedding `ℕ → ℤ`,
and their common value is `gcd(x, y)`. -/
theorem C10_variants_agree {x y : ℕ} (h : y ≤ x) (hpar : x % 2 ≠ 0 ∨ y % 2 ≠ 0) :
    si_gcd x y = sict_gcd2 x y ∧
      sict_gcd x y = Option.map (fun n : ℕ => (n : ℤ)) (sict_gcd2 x y) ∧
      sict_gcd2 x y = some (Nat.gcd x y) :=
  ⟨si_gcd_eq_sict_gcd2 x y, sict_gcd_eq_sict_gcd2 x y, sict_gcd2_correct h hpar⟩

/-- Witness for C10 at the concrete input `x = 9`, `y = 6`. -/
theorem C10_witness :
    si_gcd 9 6 = sict_gcd2 9 6 ∧
      sict_gcd 9 6 = Option.map (fun n : ℕ => (n : ℤ)) (sict_gcd2 9 6) ∧
      sict_gcd2 9 6 = some (Nat.gcd 9 6) :=
  C10_variants_agree (by decide) (by decide)

end Cryptohack
